import Mathlib

/-
  Verification of the contextual-bandit ranking engine of the
  CampusActivityRecommender repository.

  The Python sources are shallowly embedded below:
  * `app/recommendation/linucb.py`  : the `LinUCB` class (state, update, score,
    serialization), the ranking helpers and the swipe-update helper;
  * `app/recommendation/features.py`: the feature encoders;
  * `app/agents/event_pipeline.py`  : the LLM down-selection stage.

  Modelling conventions:
  * numpy float64 arithmetic is modelled by exact arithmetic over `ℚ`
    (the claims under study are about the algebra, not about rounding);
    the one genuinely real-valued operation, `np.sqrt` inside the UCB
    score, is modelled by `Real.sqrt` on the rational value;
  * `np.linalg.solve(A, w)` is modelled by `linSolve A w = A.det⁻¹ • A.adjugate *ᵥ w`,
    which is the unique solution of `A x = w` whenever `A.det ≠ 0`;
  * a Python method that may `raise` and mutate is modelled by a function
    returning `Except String _ × LinUCB` (the second component is the state
    of the object after the call; `raise` happens before any mutation);
  * file-system effects of `save_state` are modelled as the explicit list of
    performed operations (`FsOp`), so the presence or absence of a
    temp-file/rename protocol is a provable fact about the trace.
-/

set_option maxHeartbeats 1000000

namespace CampusRec

open Matrix

/-! ## Data model (app/models.py and the Event ORM class) -/

/-- A Python `datetime`, restricted to the two observations the encoder makes:
`weekday()` (Monday = 0 … Sunday = 6) and `hour` (0 … 23). -/
structure PyDateTime where
  weekday : ℕ
  hour : ℕ

/-- `app.models.User` — the fields read by the recommendation engine.
A NULL column and the empty string are both falsy in the Python code,
so both are represented by `""`. -/
structure User where
  id : ℤ
  year : String
  interests : String

/-- `app.models.Club` — the fields read by the recommendation engine. -/
structure Club where
  id : ℤ
  tags : String
  meeting_time : String

/-- The `Event` ORM class (imported from `app.models` by the pipeline; its
class body is not among the provided sources, but every field below is read
by `features.py` / `event_pipeline.py`): an id, an optional parent club
carrying the tags, and an optional `start_time`. -/
structure Event where
  id : ℤ
  club : Option Club
  start_time : Option PyDateTime

/-! ## LinUCB model state (app/recommendation/linucb.py) -/

/-- The state of a `LinUCB` instance: `dim`, `alpha`, `lambda_reg`, the
design matrix `A` and the response vector `b` (entries modelled in `ℚ`). -/
structure LinUCB where
  dim : ℕ
  alpha : ℚ
  lambda_reg : ℚ
  A : Matrix (Fin dim) (Fin dim) ℚ
  b : Fin dim → ℚ

/-- `LinUCB.__init__`: `A = lambda_reg * I`, `b = 0`. -/
def LinUCB.init (dim : ℕ) (alpha lambda_reg : ℚ) : LinUCB :=
  { dim := dim
    alpha := alpha
    lambda_reg := lambda_reg
    A := lambda_reg • (1 : Matrix (Fin dim) (Fin dim) ℚ)
    b := 0 }

/-- `LinUCB.reset`: reinitialize `A` and `b`. -/
def LinUCB.reset (m : LinUCB) : LinUCB :=
  { m with A := m.lambda_reg • (1 : Matrix (Fin m.dim) (Fin m.dim) ℚ), b := 0 }

/-- Read a length-`n` list as a vector `Fin n → ℚ` (no padding, no
truncation: it is only applicable given a proof that the length matches). -/
def listVec {n : ℕ} (phi : List ℚ) (h : phi.length = n) : Fin n → ℚ :=
  fun i => phi.get (Fin.cast h.symm i)

/-- `np.linalg.solve(A, w)` in exact arithmetic: `A⁻¹ w`, computed through
the adjugate so that the definition is executable.  Agrees with the unique
solution of `A x = w` whenever `A.det ≠ 0`. -/
def linSolve {d : ℕ} (A : Matrix (Fin d) (Fin d) ℚ) (w : Fin d → ℚ) : Fin d → ℚ :=
  (A.det⁻¹ • A.adjugate) *ᵥ w

/-- The predicted-mean term of the UCB score: `φᵀ θ̂` with `θ̂ = A⁻¹ b`
(`LinUCB._theta_hat` composed into `LinUCB._ucb_score`). -/
def LinUCB.meanOf (m : LinUCB) (phiV : Fin m.dim → ℚ) : ℚ :=
  phiV ⬝ᵥ linSolve m.A m.b

/-- The quadratic form `φᵀ A⁻¹ φ` under the square root in `_ucb_score`. -/
def LinUCB.varOf (m : LinUCB) (phiV : Fin m.dim → ℚ) : ℚ :=
  phiV ⬝ᵥ linSolve m.A phiV

/-- The value computed by `LinUCB._ucb_score` on a dimension-correct vector:
`φᵀθ̂ + alpha * sqrt(φᵀ A⁻¹ φ)`. -/
noncomputable def LinUCB.ucb (m : LinUCB) (phiV : Fin m.dim → ℚ) : ℝ :=
  (m.meanOf phiV : ℝ) + (m.alpha : ℝ) * Real.sqrt ((m.varOf phiV : ℚ) : ℝ)

/-- `LinUCB.score` / `LinUCB._ucb_score`: checks the dimension, raises a
`ValueError` on mismatch, otherwise returns the UCB score.  The second
component is the state of the object after the call (the method performs
no assignment, so it is always the unchanged `m`). -/
noncomputable def LinUCB.score (m : LinUCB) (phi : List ℚ) :
    Except String ℝ × LinUCB :=
  if h : phi.length = m.dim then
    (Except.ok (m.ucb (listVec phi h)), m)
  else
    (Except.error "Feature dimension mismatch", m)

/-- `LinUCB.update_from_features`: checks the dimension (raising before any
mutation on mismatch), then performs `A += φ φᵀ` and `b += reward · φ`. -/
def LinUCB.update_from_features (m : LinUCB) (phi : List ℚ) (reward : ℚ) :
    Except String Unit × LinUCB :=
  if h : phi.length = m.dim then
    (Except.ok (),
      { m with
        A := m.A + vecMulVec (listVec phi h) (listVec phi h)
        b := m.b + reward • listVec phi h })
  else
    (Except.error "Feature dimension mismatch in update", m)

/-- The pure effect of a successful update on the state. -/
def LinUCB.updatedPure (m : LinUCB) (v : Fin m.dim → ℚ) (reward : ℚ) : LinUCB :=
  { m with A := m.A + vecMulVec v v, b := m.b + reward • v }

/-- A finite sequence of `update_from_features` calls (a call whose vector
has the wrong length raises and leaves the state unchanged). -/
def applyUpdates (m : LinUCB) : List (List ℚ × ℚ) → LinUCB
  | [] => m
  | u :: rest => applyUpdates (m.update_from_features u.1 u.2).2 rest

/-! ## Kernel-computable models of the Python string operations -/

/-- Split a character list at every character satisfying `p`, keeping
empty segments (the character-level behaviour of Python's `str.split(sep)`).
Defined structurally so that it evaluates inside the kernel. -/
def splitCharsAux (p : Char → Bool) : List Char → List Char → List (List Char)
  | [], acc => [acc.reverse]
  | c :: cs, acc =>
    if p c then acc.reverse :: splitCharsAux p cs []
    else splitCharsAux p cs (c :: acc)

/-- Python `s.split(sep)` for a one-character separator (all separators in
this code base — `","`, `":"`, `"/"` — are one character): split at each
occurrence, keeping empty pieces. -/
def pySplitOn (sep : Char) (s : String) : List String :=
  (splitCharsAux (fun c => c == sep) s.data []).map fun l => String.mk l

/-- Python `str.split()` with no argument: split on whitespace, dropping
empty pieces. -/
def pySplitWs (s : String) : List String :=
  ((splitCharsAux Char.isWhitespace s.data []).map fun l => String.mk l).filter
    fun t => t ≠ ""

/-- Python `str.strip()`: remove leading and trailing whitespace. -/
def pyStrip (s : String) : String :=
  String.mk (((s.data.dropWhile Char.isWhitespace).reverse.dropWhile
    Char.isWhitespace).reverse)

/-- Python `str.lower()` for the ASCII strings this code handles. -/
def pyLower (s : String) : String :=
  String.mk (s.data.map Char.toLower)

/-- Python `s[:n]`. -/
def pyTake (n : ℕ) (s : String) : String :=
  String.mk (s.data.take n)

/-- Python `int(s)` for a decimal string: optional surrounding whitespace,
optional sign, then a nonempty run of ASCII digits; `none` models the
`ValueError` raised otherwise. -/
def pyInt (s : String) : Option ℤ :=
  let t := (pyStrip s).data
  let sign : ℤ := if t.headD ' ' = '-' then -1 else 1
  let digits := if t.headD ' ' = '-' ∨ t.headD ' ' = '+' then t.drop 1 else t
  if digits ≠ [] ∧ digits.all Char.isDigit then
    some (sign * ((digits.foldl (fun acc c => 10 * acc + (c.toNat - 48)) 0 : ℕ) : ℤ))
  else
    none

/-! ## Serialization (to_state / save_state / from_state) -/

/-- The content of one persisted `.npz` snapshot: exactly the entries
written by `LinUCB.to_state` (`A` a `dim × dim` float array, `b` a
length-`dim` float array, and the three scalars). -/
structure StateRecord where
  dim : ℕ
  alpha : ℚ
  lambda_reg : ℚ
  A : Matrix (Fin dim) (Fin dim) ℚ
  b : Fin dim → ℚ

/-- `LinUCB.to_state`: serialize the parameters into a plain record. -/
def LinUCB.to_state (m : LinUCB) : StateRecord :=
  { dim := m.dim
    alpha := m.alpha
    lambda_reg := m.lambda_reg
    A := m.A
    b := m.b }

/-- `os.path.dirname`, modelled for forward-slash paths: everything before
the last separator. -/
def dirname (p : String) : String :=
  String.intercalate "/" ((pySplitOn '/' p).dropLast)

/-- One file-system operation performed by the persistence code.  The
vocabulary deliberately includes `replace` (an atomic rename, as in
`os.replace(src, dst)`) so that its absence from a trace is expressible. -/
inductive FsOp where
  | makedirs (dir : String)
  | savez (path : String) (st : StateRecord)
  | replace (src dst : String)

/-- Whether an operation is an atomic rename. -/
def FsOp.isReplace : FsOp → Bool
  | .replace _ _ => true
  | _ => false

/-- `LinUCB.save_state`: `os.makedirs(dirname(path))` followed by a single
`np.savez(path, **state)` writing directly to `path`.  The result is the
trace of file-system operations performed. -/
def LinUCB.save_state (m : LinUCB) (path : String) : List FsOp :=
  [FsOp.makedirs (dirname path), FsOp.savez path m.to_state]

/-- `LinUCB.from_state`: `none` models a missing state file (the Python
returns `None`); otherwise a fresh instance is constructed from the
recorded `dim`, `alpha`, `lambda_reg` and its `A`, `b` are overwritten
with the recorded arrays. -/
def LinUCB.from_state : Option StateRecord → Option LinUCB
  | none => none
  | some r => some { LinUCB.init r.dim r.alpha r.lambda_reg with A := r.A, b := r.b }

/-! ## Feature encoders (app/recommendation/features.py)

Feature vectors are modelled as `List ℚ` (an ordered, concatenated, fixed
layout of blocks), matching the `np.concatenate` construction. -/

/-- The module-level `TAG_VOCAB` list that is in scope when the encoders
run (`features.py` rebinds the name after importing it, so this literal is
the effective vocabulary for every call made after module load). -/
def TAG_VOCAB : List String :=
  ["academic_stem_tech", "business_career", "creative_arts", "sports",
   "gaming", "service", "activism_environment", "politics", "cultural", "faith"]

/-- `YEAR_CATEGORIES` from features.py. -/
def YEAR_CATEGORIES : List String := ["freshman", "sophomore", "junior", "senior"]

/-- `DAY_ORDER` from features.py. -/
def DAY_ORDER : List String := ["mon", "tue", "wed", "thu", "fri", "sat", "sun"]

/-- `_encode_year`: a 5-slot one-hot over `YEAR_CATEGORIES` with a trailing
"other" bucket for missing or unrecognized values. -/
def encode_year (year : String) : List ℚ :=
  if year = "" then [0, 0, 0, 0, 1]
  else
    let y := pyLower (pyStrip year)
    if y ∈ YEAR_CATEGORIES then
      (YEAR_CATEGORIES.map fun c => if c = y then (1 : ℚ) else 0) ++ [0]
    else [0, 0, 0, 0, 1]

/-- Modelled from the spec: `app.recommendation.utils.parse_tags` is
imported by features.py but its module is not among the provided sources.
Per §3 of the spec, interest/tag strings are comma-separated tags parsed
into a tag set (unknown tags are dropped later, at encoding time); we model
the set as the deduplicated list of nonempty trimmed comma-pieces. -/
def parse_tags (s : String) : List String :=
  (((pySplitOn ',' s).map pyStrip).filter (fun t => t ≠ "")).dedup

/-- `_encode_tags_as_multihot`: multi-hot over `TAG_VOCAB`. -/
def encode_tags_as_multihot (tag_set : List String) : List ℚ :=
  TAG_VOCAB.map fun tag => if tag ∈ tag_set then (1 : ℚ) else 0

/-- `_encode_meeting_time`: parse a schedule string such as "Tue 18:00"
into a 7-slot day one-hot and a 3-slot morning/afternoon/evening bucket,
degrading to zero blocks instead of failing. -/
def encode_meeting_time (meeting_time : String) : List ℚ × List ℚ :=
  let zeros7 : List ℚ := List.replicate 7 0
  let zeros3 : List ℚ := List.replicate 3 0
  if meeting_time = "" then (zeros7, zeros3)
  else
    let parts := pySplitWs meeting_time
    if 2 ≤ parts.length then
      let raw_day := pyTake 3 (pyLower (pyStrip (parts.headD "")))
      let day_vec := DAY_ORDER.map fun d => if d = raw_day then (1 : ℚ) else 0
      let time_part := parts.getD 1 ""
      let hour_str := (pySplitOn ':' time_part).headD ""
      let bucket_vec :=
        match pyInt hour_str with
        | none => zeros3
        | some hour =>
          [if 0 ≤ hour ∧ hour < 12 then (1 : ℚ) else 0,
           if 12 ≤ hour ∧ hour < 17 then (1 : ℚ) else 0,
           if 17 ≤ hour ∧ hour ≤ 23 then (1 : ℚ) else 0]
      (day_vec, bucket_vec)
    else (zeros7, zeros3)

/-- `_compute_tag_interactions`: overlap count and Jaccard similarity of
the two tag sets. -/
def compute_tag_interactions (user_tags club_tags : List String) : ℚ × ℚ :=
  let overlap := user_tags.inter club_tags
  let union := (user_tags ++ club_tags).dedup
  ((overlap.length : ℚ),
   if 0 < union.length then (overlap.length : ℚ) / (union.length : ℚ) else 0)

/-- `build_feature_vector`: the 38-dimensional club feature layout
`[year(5) | user tags(10) | club tags(10) | day(7) | bucket(3) |
overlap(1) | jaccard(1) | bias(1)]`. -/
def build_feature_vector (user : User) (club : Club) : List ℚ :=
  let user_tags := parse_tags user.interests
  let club_tags := parse_tags club.tags
  let mt := encode_meeting_time club.meeting_time
  let inter := compute_tag_interactions user_tags club_tags
  encode_year user.year ++
    encode_tags_as_multihot user_tags ++
    encode_tags_as_multihot club_tags ++
    mt.1 ++ mt.2 ++ [inter.1, inter.2] ++ [1]

/-- `encode_tags_to_vector`: multi-hot of a comma-separated tag string. -/
def encode_tags_to_vector (tags_str : String) : List ℚ :=
  if tags_str = "" then TAG_VOCAB.map fun _ => (0 : ℚ)
  else
    let tags := ((pySplitOn ',' tags_str).map pyStrip).filter (fun t => t ≠ "")
    TAG_VOCAB.map fun tag => if tag ∈ tags then (1 : ℚ) else 0

/-- `encode_user_interests`. -/
def encode_user_interests (user : User) : List ℚ :=
  encode_tags_to_vector user.interests

/-- `build_event_feature_vector`: the 24-dimensional event feature layout
`[user interests(10) | parent-club tags(10) | time flags(4)]` where the
time flags are `[weekday, weekend, non_evening, evening]` derived from
`start_time` (a missing `start_time` sets `is_weekend = is_evening = 0`,
hence flags `[1, 0, 1, 0]`). -/
def build_event_feature_vector (user : User) (event : Event) : List ℚ :=
  let user_vec := encode_user_interests user
  let club_tag_vec :=
    match event.club with
    | some c => encode_tags_to_vector c.tags
    | none => TAG_VOCAB.map fun _ => (0 : ℚ)
  let is_weekend : ℚ :=
    match event.start_time with
    | some t => if 5 ≤ t.weekday then 1 else 0
    | none => 0
  let is_evening : ℚ :=
    match event.start_time with
    | some t => if 17 ≤ t.hour ∧ t.hour ≤ 22 then 1 else 0
    | none => 0
  let time_vec : List ℚ := [1 - is_weekend, is_weekend, 1 - is_evening, is_evening]
  user_vec ++ club_tag_vec ++ time_vec

/-! ## Ranking helpers (app/recommendation/linucb.py) -/

/-- The module-level club state-file path (an absolute path under the
`instance/` directory in Python; modelled as the fixed relative form). -/
def STATE_PATH_CLUBS : String := "instance/linucb_clubs_state.npz"

/-- The module-level event state-file path. -/
def STATE_PATH_EVENTS : String := "instance/linucb_events_state.npz"

/-- One step of the stable descending insertion used to model
`list.sort(key=lambda x: x[1], reverse=True)`: an element is placed before
the first element whose score is less than or equal to its own, so an
earlier element precedes later elements of equal score. -/
def insertDesc {ι β : Type} [LinearOrder β] (x : ι × β) :
    List (ι × β) → List (ι × β)
  | [] => [x]
  | y :: ys => if y.2 ≤ x.2 then x :: y :: ys else y :: insertDesc x ys

/-- Stable sort by descending score: the extensional behaviour of Python's
stable `sort(key=lambda x: x[1], reverse=True)`. -/
def sortDesc {ι β : Type} [LinearOrder β] : List (ι × β) → List (ι × β)
  | [] => []
  | x :: xs => insertDesc x (sortDesc xs)

/-- The scored list built by the loop of `rank_clubs_with_linucb`
(`Except` aborts at the first `raise`, as the Python loop would). -/
noncomputable def clubScored (model : LinUCB) (user : User) (clubs : List Club) :
    Except String (List (Club × ℝ)) :=
  clubs.mapM fun c =>
    (model.score (build_feature_vector user c)).1.map fun s => (c, s)

/-- `rank_clubs_with_linucb`: early-return `[]` on an empty candidate list,
otherwise score every club with the club model, stable-sort by score
descending and truncate to `top_k`. -/
noncomputable def rank_clubs_with_linucb (model : LinUCB) (user : User)
    (clubs : List Club) (top_k : ℕ) : Except String (List (Club × ℝ)) :=
  if clubs.isEmpty then Except.ok []
  else
    match clubScored model user clubs with
    | Except.ok scored => Except.ok ((sortDesc scored).take top_k)
    | Except.error e => Except.error e

/-- The scored list built by the loop of `rank_events_with_linucb`. -/
noncomputable def eventScored (model : LinUCB) (user : User) (events : List Event) :
    Except String (List (Event × ℝ)) :=
  events.mapM fun ev =>
    (model.score (build_event_feature_vector user ev)).1.map fun s => (ev, s)

/-- `rank_events_with_linucb`: same shape as the club ranking helper. -/
noncomputable def rank_events_with_linucb (model : LinUCB) (user : User)
    (events : List Event) (top_k : ℕ) : Except String (List (Event × ℝ)) :=
  if events.isEmpty then Except.ok []
  else
    match eventScored model user events with
    | Except.ok scored => Except.ok ((sortDesc scored).take top_k)
    | Except.error e => Except.error e

/-- `update_global_linucb_from_swipe`: reward `1.0` for a like else `0.0`,
update the club model from `(user, club)`, then save the updated state to
`STATE_PATH_CLUBS`.  If the update raises, the exception propagates and no
save happens.  Returns (outcome, model state after the call, file-system
trace). -/
def update_global_linucb_from_swipe (model : LinUCB) (user : User) (club : Club)
    (liked : Bool) : Except String Unit × LinUCB × List FsOp :=
  let reward : ℚ := if liked then 1 else 0
  match model.update_from_features (build_feature_vector user club) reward with
  | (Except.ok _, m') => (Except.ok (), m', m'.save_state STATE_PATH_CLUBS)
  | (Except.error e, m') => (Except.error e, m', [])

/-! ## LLM down-selection stage (app/agents/event_pipeline.py) -/

/-- The observable outcome of the Gemini call plus JSON decoding in
`select_top_events_with_llm`: the raw response failed to parse as JSON,
the ids failed `int()` conversion, or a list of integer ids. -/
inductive LLMSelection where
  | parseError
  | badIds
  | ids (selected : List ℤ)

/-- Lookup in the `id_to_event` dict built from the candidate list (for a
duplicated id the later candidate wins, as in a Python dict build). -/
def lastWithId (candidates : List Event) (eid : ℤ) : Option Event :=
  candidates.reverse.find? fun ev => ev.id == eid

/-- The selection loop: append the candidate for each recognized id, and
break as soon as `final_k` events have been collected (checked after each
append, as in the Python loop). -/
def collectSelected (candidates : List Event) (final_k : ℕ) :
    List ℤ → List Event → List Event
  | [], acc => acc
  | eid :: rest, acc =>
    let acc' :=
      match lastWithId candidates eid with
      | some ev => acc ++ [ev]
      | none => acc
    if final_k ≤ acc'.length then acc'
    else collectSelected candidates final_k rest acc'

/-- `select_top_events_with_llm`: if there are at most `final_k`
candidates, skip the LLM entirely and return them as-is; otherwise ask the
oracle and fall back to the first `final_k` candidates whenever the
response is unusable. -/
def select_top_events_with_llm (llm : List Event → LLMSelection)
    (candidates : List Event) (final_k : ℕ) : List Event :=
  if candidates.length ≤ final_k then candidates
  else
    match llm candidates with
    | LLMSelection.parseError => candidates.take final_k
    | LLMSelection.badIds => candidates.take final_k
    | LLMSelection.ids selected_ids =>
      let selected := collectSelected candidates final_k selected_ids []
      if selected.isEmpty then candidates.take final_k else selected

/-! ## Lemmas about the embedded linear solver -/

theorem linSolve_eq_inv_mulVec {d : ℕ} (A : Matrix (Fin d) (Fin d) ℚ) (w : Fin d → ℚ) :
    linSolve A w = A⁻¹ *ᵥ w := by
  rw [linSolve, Matrix.inv_def, Ring.inverse_eq_inv]

theorem mulVec_linSolve {d : ℕ} {A : Matrix (Fin d) (Fin d) ℚ} (hdet : A.det ≠ 0)
    (w : Fin d → ℚ) : A *ᵥ linSolve A w = w := by
  rw [linSolve_eq_inv_mulVec, Matrix.mulVec_mulVec,
    Matrix.mul_nonsing_inv _ (isUnit_iff_ne_zero.mpr hdet), Matrix.one_mulVec]

theorem linSolve_unique {d : ℕ} {A : Matrix (Fin d) (Fin d) ℚ} (hdet : A.det ≠ 0)
    {x w : Fin d → ℚ} (hx : A *ᵥ x = w) : linSolve A w = x := by
  rw [linSolve_eq_inv_mulVec, ← hx, Matrix.mulVec_mulVec,
    Matrix.nonsing_inv_mul _ (isUnit_iff_ne_zero.mpr hdet), Matrix.one_mulVec]

theorem vecMulVec_mulVec {d : ℕ} (v w x : Fin d → ℚ) :
    vecMulVec v w *ᵥ x = (w ⬝ᵥ x) • v := by
  funext i
  simp only [Matrix.mulVec, Matrix.dotProduct, Matrix.vecMulVec_apply,
    Pi.smul_apply, smul_eq_mul]
  rw [Finset.sum_mul]
  exact Finset.sum_congr rfl fun j _ => by ring

/-! ## Symmetry and positive definiteness -/

/-- Symmetric positive-definite, over the exact rationals. -/
def IsSymPosDef {d : ℕ} (M : Matrix (Fin d) (Fin d) ℚ) : Prop :=
  M.transpose = M ∧ ∀ x : Fin d → ℚ, x ≠ 0 → 0 < x ⬝ᵥ (M *ᵥ x)

theorem dotProduct_self_pos {d : ℕ} {x : Fin d → ℚ} (hx : x ≠ 0) :
    0 < x ⬝ᵥ x := by
  rcases lt_or_eq_of_le (Finset.sum_nonneg fun i _ => mul_self_nonneg (x i)) with h | h
  · exact h
  · exact absurd (Matrix.dotProduct_self_eq_zero.mp h.symm) hx

theorem isSymPosDef_smul_one {d : ℕ} {lam : ℚ} (h : 0 < lam) :
    IsSymPosDef (lam • (1 : Matrix (Fin d) (Fin d) ℚ)) := by
  constructor
  · rw [Matrix.transpose_smul, Matrix.transpose_one]
  · intro x hx
    rw [Matrix.smul_mulVec_assoc, Matrix.one_mulVec, Matrix.dotProduct_smul, smul_eq_mul]
    exact mul_pos h (dotProduct_self_pos hx)

theorem isSymPosDef_add_outer {d : ℕ} {M : Matrix (Fin d) (Fin d) ℚ}
    (hM : IsSymPosDef M) (v : Fin d → ℚ) : IsSymPosDef (M + vecMulVec v v) := by
  constructor
  · rw [Matrix.transpose_add, hM.1]
    congr 1
    funext i j
    simp [Matrix.vecMulVec_apply, mul_comm]
  · intro x hx
    rw [Matrix.add_mulVec, Matrix.dotProduct_add, vecMulVec_mulVec,
      Matrix.dotProduct_smul, smul_eq_mul]
    have h1 : 0 < x ⬝ᵥ (M *ᵥ x) := hM.2 x hx
    have h2 : 0 ≤ v ⬝ᵥ x * (x ⬝ᵥ v) := by
      rw [Matrix.dotProduct_comm x v]
      exact mul_self_nonneg _
    linarith

theorem IsSymPosDef.det_ne_zero {d : ℕ} {M : Matrix (Fin d) (Fin d) ℚ}
    (hM : IsSymPosDef M) : M.det ≠ 0 := by
  intro hdet
  obtain ⟨v, hv, hMv⟩ := Matrix.exists_mulVec_eq_zero_iff.mpr hdet
  have := hM.2 v hv
  rw [hMv, Matrix.dotProduct_zero] at this
  exact lt_irrefl 0 this

theorem update_preserves_isSymPosDef (m : LinUCB) (phi : List ℚ) (r : ℚ)
    (hM : IsSymPosDef m.A) : IsSymPosDef (m.update_from_features phi r).2.A := by
  rw [LinUCB.update_from_features]
  by_cases h : phi.length = m.dim
  · rw [dif_pos h]
    exact isSymPosDef_add_outer hM (listVec phi h)
  · rw [dif_neg h]
    exact hM

theorem applyUpdates_preserves_isSymPosDef (updates : List (List ℚ × ℚ)) :
    ∀ m : LinUCB, IsSymPosDef m.A → IsSymPosDef (applyUpdates m updates).A := by
  induction updates with
  | nil => intro m hm; exact hm
  | cons u rest ih =>
    intro m hm
    exact ih _ (update_preserves_isSymPosDef m u.1 u.2 hm)

theorem linSolve_fin_one (A : Matrix (Fin 1) (Fin 1) ℚ) (w : Fin 1 → ℚ) :
    linSolve A w = (A 0 0)⁻¹ • w := by
  rw [linSolve, Matrix.det_fin_one, Matrix.adjugate_fin_one,
    Matrix.smul_mulVec_assoc, Matrix.one_mulVec]

/-- On a freshly constructed model (`b = 0`) the predicted mean is zero. -/
theorem meanOf_init (d : ℕ) (a l : ℚ) (v : Fin d → ℚ) :
    (LinUCB.init d a l).meanOf v = 0 := by
  show v ⬝ᵥ linSolve (LinUCB.init d a l).A 0 = 0
  rw [linSolve, Matrix.mulVec_zero, Matrix.dotProduct_zero]

/-- The effect of one reward-1 update on the predicted mean at the very
vector being updated: writing `s = φᵀA⁻¹φ ≥ 0` and `mn = φᵀA⁻¹b`, the new
mean is `mn + s·(1 - mn)/(1 + s)`, which is ≥ `mn` exactly when `mn ≤ 1`. -/
theorem meanOf_updatedPure (m : LinUCB) (v : Fin m.dim → ℚ)
    (hA : IsSymPosDef m.A) (hm : m.meanOf v ≤ 1) :
    m.meanOf v ≤ (m.updatedPure v 1).meanOf v := by
  have hdet : m.A.det ≠ 0 := hA.det_ne_zero
  have hAθ : m.A *ᵥ linSolve m.A m.b = m.b := mulVec_linSolve hdet m.b
  have hAu : m.A *ᵥ linSolve m.A v = v := mulVec_linSolve hdet v
  have hs0 : 0 ≤ v ⬝ᵥ linSolve m.A v := by
    by_cases hv : v = 0
    · rw [hv, Matrix.zero_dotProduct]
    · have hu0 : linSolve m.A v ≠ 0 := by
        intro h0
        rw [h0, Matrix.mulVec_zero] at hAu
        exact hv hAu.symm
      have hpos := hA.2 (linSolve m.A v) hu0
      rw [hAu] at hpos
      rw [Matrix.dotProduct_comm]
      exact le_of_lt hpos
  have hmn : m.meanOf v = v ⬝ᵥ linSolve m.A m.b := rfl
  set s : ℚ := v ⬝ᵥ linSolve m.A v with hsdef
  set mn : ℚ := v ⬝ᵥ linSolve m.A m.b with hmndef
  have hs1 : (0 : ℚ) < 1 + s := by linarith
  set c : ℚ := (1 - mn) / (1 + s) with hcdef
  have hA' : IsSymPosDef (m.A + vecMulVec v v) := isSymPosDef_add_outer hA v
  have hsolve : (m.A + vecMulVec v v) *ᵥ (linSolve m.A m.b + c • linSolve m.A v) =
      m.b + (1 : ℚ) • v := by
    rw [Matrix.add_mulVec, Matrix.mulVec_add, Matrix.mulVec_smul, hAθ, hAu,
      vecMulVec_mulVec, Matrix.dotProduct_add, Matrix.dotProduct_smul,
      ← hmndef, ← hsdef, smul_eq_mul, add_assoc, ← add_smul]
    have hcval : c + (mn + c * s) = 1 := by
      rw [hcdef]
      field_simp
      ring
    rw [hcval]
  have hsol : linSolve (m.A + vecMulVec v v) (m.b + (1 : ℚ) • v) =
      linSolve m.A m.b + c • linSolve m.A v :=
    linSolve_unique hA'.det_ne_zero hsolve
  have hpost : (m.updatedPure v 1).meanOf v = mn + c * s := by
    show v ⬝ᵥ linSolve (m.A + vecMulVec v v) (m.b + (1 : ℚ) • v) = mn + c * s
    rw [hsol, Matrix.dotProduct_add, Matrix.dotProduct_smul, ← hmndef, ← hsdef,
      smul_eq_mul]
  rw [hpost, hmn]
  have hc0 : 0 ≤ c * s := by
    apply mul_nonneg _ hs0
    apply div_nonneg _ (le_of_lt hs1)
    rw [hmn] at hm
    linarith
  linarith

/-! ## Claim theorems -/

/-- C1: for every feature vector `phi` with `len(phi) = dim` and every
reward `r`, `update_from_features` succeeds and transforms the state by
exactly `A := A + φφᵀ` and `b := b + r·φ` (all other fields unchanged, as
recorded by `updatedPure`); moreover `score` never changes the state, and
`reset` (the only other mutator) reinitializes `A = λI`, `b = 0`.  All
remaining operations (`to_state`, `save_state`, `from_state`) are
state-free by their types. -/
theorem C1_update_rule (m : LinUCB) (phi : List ℚ) (r : ℚ)
    (h : phi.length = m.dim) :
    m.update_from_features phi r = (Except.ok (), m.updatedPure (listVec phi h) r) ∧
    (∀ phi2 : List ℚ, (m.score phi2).2 = m) ∧
    m.reset = { m with A := m.lambda_reg • 1, b := 0 } := by
  refine ⟨?_, ?_, rfl⟩
  · rw [LinUCB.update_from_features, dif_pos h, LinUCB.updatedPure]
  · intro phi2
    rw [LinUCB.score]
    by_cases h2 : phi2.length = m.dim
    · rw [dif_pos h2]
    · rw [dif_neg h2]

/-- Witness for C1 at a concrete model and vector. -/
theorem C1_update_rule_witness :
    (LinUCB.init 2 (1/2) 3).update_from_features [1, 2] 5 =
      (Except.ok (), (LinUCB.init 2 (1/2) 3).updatedPure (listVec [1, 2] rfl) 5) ∧
    ((LinUCB.init 2 (1/2) 3).score [9]).2 = LinUCB.init 2 (1/2) 3 :=
  ⟨(C1_update_rule (LinUCB.init 2 (1/2) 3) [1, 2] 5 rfl).1,
   (C1_update_rule (LinUCB.init 2 (1/2) 3) [1, 2] 5 rfl).2.1 [9]⟩

/-- C2: starting from `A = λI` with `λ > 0`, any finite sequence of
`update_from_features` calls with dimension-`d` vectors keeps `A`
symmetric and positive-definite; hence `det A ≠ 0` and the embedded
`np.linalg.solve` really solves `A x = w` for every right-hand side, so
neither `θ̂ = solve(A, b)` nor the `solve(A, φ)` inside `score` can fail. -/
theorem C2_pd_invariant (d : ℕ) (alpha lam : ℚ) (hlam : 0 < lam)
    (updates : List (List ℚ × ℚ)) (hdim : ∀ u ∈ updates, (u.1).length = d) :
    IsSymPosDef (applyUpdates (LinUCB.init d alpha lam) updates).A ∧
    (applyUpdates (LinUCB.init d alpha lam) updates).A.det ≠ 0 ∧
    ∀ w, (applyUpdates (LinUCB.init d alpha lam) updates).A *ᵥ
        linSolve (applyUpdates (LinUCB.init d alpha lam) updates).A w = w := by
  have hpd : IsSymPosDef (applyUpdates (LinUCB.init d alpha lam) updates).A :=
    applyUpdates_preserves_isSymPosDef updates _ (isSymPosDef_smul_one hlam)
  exact ⟨hpd, hpd.det_ne_zero, fun w => mulVec_linSolve hpd.det_ne_zero w⟩

/-- Witness for C2 at a concrete two-update sequence. -/
theorem C2_pd_invariant_witness :
    (0 : ℚ) < 1/2 ∧ (∀ u ∈ [([(1 : ℚ), 2], (1 : ℚ)), ([3, 4], 0)], (u.1).length = 2) ∧
    IsSymPosDef (applyUpdates (LinUCB.init 2 1 (1/2))
      [([1, 2], 1), ([3, 4], 0)]).A :=
  ⟨by norm_num, by decide,
   (C2_pd_invariant 2 1 (1/2) (by norm_num) [([1, 2], 1), ([3, 4], 0)] (by decide)).1⟩

/-- C3: `score` and `update_from_features` fail if and only if the vector
length disagrees with the model dimension; on failure the state is
unchanged (the `raise` precedes any mutation), and `score` never mutates.
On success the exact given entries are used (see C1's `updatedPure`
equation), so the vector is never padded or truncated. -/
theorem C3_dimension_check (m : LinUCB) (phi : List ℚ) (r : ℚ) :
    ((m.update_from_features phi r).1 = Except.ok () ↔ phi.length = m.dim) ∧
    ((∃ e, (m.update_from_features phi r).1 = Except.error e) ↔ phi.length ≠ m.dim) ∧
    ((∃ s, (m.score phi).1 = Except.ok s) ↔ phi.length = m.dim) ∧
    ((∃ e, (m.score phi).1 = Except.error e) ↔ phi.length ≠ m.dim) ∧
    (phi.length ≠ m.dim → (m.update_from_features phi r).2 = m) ∧
    (m.score phi).2 = m := by
  by_cases h : phi.length = m.dim <;>
    simp [LinUCB.update_from_features, LinUCB.score, h]

/-- Witness for C3 at a wrong-length vector. -/
theorem C3_dimension_check_witness :
    ((LinUCB.init 2 1 1).update_from_features [1, 2, 3] 1).2 = LinUCB.init 2 1 1 :=
  (C3_dimension_check (LinUCB.init 2 1 1) [1, 2, 3] 1).2.2.2.2.1 (by decide)

/-- C4 counterexample: the claim quantifies over every positive-definite
state `(A, b)`.  At `A = [[1]]`, `b = [2]`, `φ = [1]` the pre-update mean
is `2`; after `update(φ, 1.0)` the state is `A = [[2]]`, `b = [3]` and the
mean term drops to `3/2 < 2`.  So the mean term is not non-decreasing, and
the claim as stated is false.  The second conjunct checks that
`updatedPure` really is what `update_from_features` produces here. -/
theorem C4_counterexample :
    ((⟨1, 1, 1, !![1], ![2]⟩ : LinUCB).updatedPure ![1] 1).meanOf ![1] <
      (⟨1, 1, 1, !![1], ![2]⟩ : LinUCB).meanOf ![1] ∧
    ((⟨1, 1, 1, !![1], ![2]⟩ : LinUCB).update_from_features [1] 1).2 =
      (⟨1, 1, 1, !![1], ![2]⟩ : LinUCB).updatedPure ![1] 1 := by
  constructor
  · show (![1] ⬝ᵥ linSolve (!![1] + vecMulVec ![1] ![1]) (![2] + (1 : ℚ) • ![1])) <
      ![1] ⬝ᵥ linSolve !![1] ![2]
    rw [linSolve_fin_one, linSolve_fin_one]
    norm_num [Matrix.dotProduct, Fin.sum_univ_one, Matrix.vecMulVec_apply,
      Matrix.add_apply]
  · have h1 : ([1] : List ℚ).length = (⟨1, 1, 1, !![1], ![2]⟩ : LinUCB).dim := rfl
    rw [LinUCB.update_from_features, dif_pos h1]
    have hv : listVec [1] h1 = ![1] := by
      funext i
      fin_cases i
      rfl
    rw [hv]
    rfl

/-- C4 (amended): the claim holds with the one extra hypothesis the
counterexample forces — the pre-update mean term `φᵀA⁻¹b` is at most `1`
(in particular for any state whose predicted mean has not overshot the
maximal reward).  Then `update_from_features(φ, 1.0)` produces exactly
`updatedPure`, and the post-update mean term at the same `φ` is ≥ the
pre-update mean term. -/
theorem C4_mean_monotone (m : LinUCB) (phi : List ℚ) (h : phi.length = m.dim)
    (hA : IsSymPosDef m.A) (hm : m.meanOf (listVec phi h) ≤ 1) :
    (m.update_from_features phi 1).2 = m.updatedPure (listVec phi h) 1 ∧
    m.meanOf (listVec phi h) ≤ (m.updatedPure (listVec phi h) 1).meanOf (listVec phi h) := by
  constructor
  · rw [LinUCB.update_from_features, dif_pos h]
    rfl
  · exact meanOf_updatedPure m (listVec phi h) hA hm

/-- Witness for the amended C4 at a fresh one-dimensional model. -/
theorem C4_mean_monotone_witness :
    IsSymPosDef (LinUCB.init 1 1 1).A ∧
    (LinUCB.init 1 1 1).meanOf (listVec [1] rfl) ≤ 1 ∧
    (LinUCB.init 1 1 1).meanOf (listVec [1] rfl) ≤
      ((LinUCB.init 1 1 1).updatedPure (listVec [1] rfl) 1).meanOf (listVec [1] rfl) :=
  ⟨isSymPosDef_smul_one (by norm_num),
   by rw [meanOf_init]; norm_num,
   (C4_mean_monotone (LinUCB.init 1 1 1) [1] rfl (isSymPosDef_smul_one (by norm_num))
     (by rw [meanOf_init]; norm_num)).2⟩

/-- C6: `save_state` followed by `from_state` reconstructs a model whose
`A`, `b`, `dim`, `alpha`, `lambda_reg` all equal the saved ones exactly
(the round trip is the identity on the state record), and the
reconstructed model scores every input vector identically to the
original. -/
theorem C6_roundtrip (m : LinUCB) :
    LinUCB.from_state (some m.to_state) = some m ∧
    ∀ m' : LinUCB, LinUCB.from_state (some m.to_state) = some m' →
      ∀ phi : List ℚ, m'.score phi = m.score phi := by
  have h : LinUCB.from_state (some m.to_state) = some m := rfl
  refine ⟨h, fun m' hm' phi => ?_⟩
  have hm : m = m' := Option.some.inj (h.symm.trans hm')
  rw [← hm]

/-- Witness for C6 at a concrete model. -/
theorem C6_roundtrip_witness :
    LinUCB.from_state (some (LinUCB.init 3 1 (1/2)).to_state) =
      some (LinUCB.init 3 1 (1/2)) :=
  (C6_roundtrip (LinUCB.init 3 1 (1/2))).1

/-- C10: on a freshly constructed model with `λ > 0` and no updates, the
mean term is zero and `score(φ) = α · sqrt(φᵀφ / λ)`, so cold-start
candidates are ordered purely by the Euclidean norm of their feature
vectors (the square root is monotone). -/
theorem C10_cold_start (d : ℕ) (alpha lam : ℚ) (hlam : 0 < lam)
    (phi : List ℚ) (h : phi.length = d) :
    (LinUCB.init d alpha lam).score phi =
      (Except.ok ((alpha : ℝ) *
        Real.sqrt (((listVec phi h ⬝ᵥ listVec phi h) / lam : ℚ) : ℝ)),
        LinUCB.init d alpha lam) ∧
    (LinUCB.init d alpha lam).meanOf (listVec phi h) = 0 := by
  have hdim : phi.length = (LinUCB.init d alpha lam).dim := h
  refine ⟨?_, meanOf_init d alpha lam _⟩
  rw [LinUCB.score, dif_pos hdim]
  have hvar : (LinUCB.init d alpha lam).varOf (listVec phi hdim) =
      (listVec phi h ⬝ᵥ listVec phi h) / lam := by
    show listVec phi hdim ⬝ᵥ
        linSolve (lam • (1 : Matrix (Fin d) (Fin d) ℚ)) (listVec phi hdim) = _
    have hdet : (lam • (1 : Matrix (Fin d) (Fin d) ℚ)).det ≠ 0 := by
      rw [Matrix.det_smul, Matrix.det_one, mul_one, Fintype.card_fin]
      exact pow_ne_zero d (ne_of_gt hlam)
    have hx : (lam • (1 : Matrix (Fin d) (Fin d) ℚ)) *ᵥ
        (lam⁻¹ • listVec phi hdim) = listVec phi hdim := by
      rw [Matrix.smul_mulVec_assoc, Matrix.one_mulVec, smul_smul,
        mul_inv_cancel₀ (ne_of_gt hlam), one_smul]
    rw [linSolve_unique hdet hx, Matrix.dotProduct_smul, smul_eq_mul]
    ring
  have hucb : (LinUCB.init d alpha lam).ucb (listVec phi hdim) =
      (alpha : ℝ) * Real.sqrt (((listVec phi h ⬝ᵥ listVec phi h) / lam : ℚ) : ℝ) := by
    rw [LinUCB.ucb, meanOf_init, hvar]
    norm_num [LinUCB.init]
  rw [hucb]

/-- Witness for C10 at a fresh 1-dimensional model and `φ = [2]`. -/
theorem C10_cold_start_witness :
    (0 : ℚ) < 1 ∧
    (LinUCB.init 1 1 1).score [2] =
      (Except.ok (((1 : ℚ) : ℝ) *
        Real.sqrt (((listVec [2] rfl ⬝ᵥ listVec [2] rfl) / 1 : ℚ) : ℝ)),
        LinUCB.init 1 1 1) :=
  ⟨by norm_num, (C10_cold_start 1 1 1 (by norm_num) [2] rfl).1⟩

/-! ## Lemmas about the stable descending sort -/

/-- Sorted by score in descending order. -/
def SortedDesc {ι β : Type} [LinearOrder β] (l : List (ι × β)) : Prop :=
  List.Pairwise (fun a b => b.2 ≤ a.2) l

theorem insertDesc_perm {ι β : Type} [LinearOrder β] (x : ι × β)
    (l : List (ι × β)) : List.Perm (insertDesc x l) (x :: l) := by
  induction l with
  | nil => exact List.Perm.refl _
  | cons y ys ih =>
    rw [insertDesc]
    by_cases h : y.2 ≤ x.2
    · rw [if_pos h]
    · rw [if_neg h]
      exact (ih.cons y).trans (List.Perm.swap x y ys)

theorem sortDesc_perm {ι β : Type} [LinearOrder β] (l : List (ι × β)) :
    List.Perm (sortDesc l) l := by
  induction l with
  | nil => exact List.Perm.refl _
  | cons x xs ih =>
    rw [sortDesc]
    exact (insertDesc_perm x (sortDesc xs)).trans (ih.cons x)

theorem insertDesc_sorted {ι β : Type} [LinearOrder β] (x : ι × β) :
    ∀ l : List (ι × β), SortedDesc l → SortedDesc (insertDesc x l) := by
  intro l
  induction l with
  | nil =>
    intro _
    simp [insertDesc, SortedDesc]
  | cons y ys ih =>
    intro hl
    rw [SortedDesc, List.pairwise_cons] at hl
    obtain ⟨hy, hys⟩ := hl
    rw [insertDesc]
    by_cases h : y.2 ≤ x.2
    · rw [if_pos h, SortedDesc, List.pairwise_cons]
      refine ⟨?_, List.pairwise_cons.mpr ⟨hy, hys⟩⟩
      intro z hz
      rcases List.mem_cons.mp hz with rfl | hz'
      · exact h
      · exact le_trans (hy z hz') h
    · rw [if_neg h, SortedDesc, List.pairwise_cons]
      refine ⟨?_, ih hys⟩
      intro z hz
      rcases List.mem_cons.mp ((insertDesc_perm x ys).mem_iff.mp hz) with rfl | hz'
      · exact le_of_lt (not_le.mp h)
      · exact hy z hz'

theorem sortDesc_sorted {ι β : Type} [LinearOrder β] (l : List (ι × β)) :
    SortedDesc (sortDesc l) := by
  induction l with
  | nil => simp [sortDesc, SortedDesc]
  | cons x xs ih =>
    rw [sortDesc]
    exact insertDesc_sorted x _ ih

theorem insertDesc_filter {ι β : Type} [LinearOrder β] (x : ι × β)
    (l : List (ι × β)) (q : β) :
    (insertDesc x l).filter (fun p => decide (p.2 = q)) =
      (x :: l).filter (fun p => decide (p.2 = q)) := by
  induction l with
  | nil => rfl
  | cons y ys ih =>
    rw [insertDesc]
    by_cases h : y.2 ≤ x.2
    · rw [if_pos h]
    · rw [if_neg h]
      by_cases hx : x.2 = q
      · have hy : ¬ y.2 = q := fun he => h (le_of_eq (he.trans hx.symm))
        simp only [List.filter_cons, ih]
        simp [hx, hy]
      · simp only [List.filter_cons, ih]
        simp [hx]

theorem sortDesc_filter {ι β : Type} [LinearOrder β] (l : List (ι × β)) (q : β) :
    (sortDesc l).filter (fun p => decide (p.2 = q)) =
      l.filter (fun p => decide (p.2 = q)) := by
  induction l with
  | nil => rfl
  | cons x xs ih =>
    rw [sortDesc, insertDesc_filter, List.filter_cons, List.filter_cons, ih]

/-- The combined properties of `sort-descending-then-take`. -/
theorem sortTake_props {ι β : Type} [LinearOrder β] (scored : List (ι × β)) (k : ℕ) :
    SortedDesc ((sortDesc scored).take k) ∧
    ((sortDesc scored).take k).length ≤ k ∧
    List.Perm (sortDesc scored) scored ∧
    ∀ q : β, (sortDesc scored).filter (fun p => decide (p.2 = q)) =
      scored.filter (fun p => decide (p.2 = q)) :=
  ⟨List.Pairwise.sublist (List.take_sublist k (sortDesc scored)) (sortDesc_sorted scored),
   by rw [List.length_take]; exact min_le_left _ _,
   sortDesc_perm scored,
   fun q => sortDesc_filter scored q⟩

/-- C5: whenever `rank_clubs_with_linucb` (resp. `rank_events_with_linucb`)
returns a result, that result is sorted by score in descending order, has
at most `top_k` entries, and is the `top_k`-prefix of a stable permutation
of the scored candidates: equal-score candidates keep their relative input
order (the filter at every score value is preserved).  An empty candidate
list yields `[]` for every model, without invoking the model's score. -/
theorem C5_rank_sorted_stable (model : LinUCB) (user : User)
    (clubs : List Club) (events : List Event) (k : ℕ) :
    (∀ l, rank_clubs_with_linucb model user clubs k = Except.ok l →
      SortedDesc l ∧ l.length ≤ k ∧
      ∃ scored, clubScored model user clubs = Except.ok scored ∧
        l = (sortDesc scored).take k ∧
        List.Perm (sortDesc scored) scored ∧
        ∀ q : ℝ, (sortDesc scored).filter (fun p => decide (p.2 = q)) =
          scored.filter (fun p => decide (p.2 = q))) ∧
    (∀ l, rank_events_with_linucb model user events k = Except.ok l →
      SortedDesc l ∧ l.length ≤ k ∧
      ∃ scored, eventScored model user events = Except.ok scored ∧
        l = (sortDesc scored).take k ∧
        List.Perm (sortDesc scored) scored ∧
        ∀ q : ℝ, (sortDesc scored).filter (fun p => decide (p.2 = q)) =
          scored.filter (fun p => decide (p.2 = q))) ∧
    (∀ (m' : LinUCB) (u' : User) (k' : ℕ),
      rank_clubs_with_linucb m' u' [] k' = Except.ok []) ∧
    (∀ (m' : LinUCB) (u' : User) (k' : ℕ),
      rank_events_with_linucb m' u' [] k' = Except.ok []) := by
  refine ⟨?_, ?_, fun m' u' k' => rfl, fun m' u' k' => rfl⟩
  · intro l hl
    unfold rank_clubs_with_linucb at hl
    cases clubs with
    | nil =>
      have hl' : Except.ok ([] : List (Club × ℝ)) = Except.ok l := hl
      injection hl' with hl2
      subst hl2
      exact ⟨List.Pairwise.nil, Nat.zero_le _,
        [], rfl, by simp [sortDesc], List.Perm.refl _, fun q => rfl⟩
    | cons c cs =>
      rw [if_neg (by simp)] at hl
      cases heq : clubScored model user (c :: cs) with
      | ok scored =>
        rw [heq] at hl
        have hl' : Except.ok ((sortDesc scored).take k) = Except.ok l := hl
        injection hl' with hl2
        subst hl2
        obtain ⟨h1, h2, h3, h4⟩ := sortTake_props scored k
        exact ⟨h1, h2, scored, rfl, rfl, h3, h4⟩
      | error e =>
        rw [heq] at hl
        exact absurd hl (by simp)
  · intro l hl
    unfold rank_events_with_linucb at hl
    cases events with
    | nil =>
      have hl' : Except.ok ([] : List (Event × ℝ)) = Except.ok l := hl
      injection hl' with hl2
      subst hl2
      exact ⟨List.Pairwise.nil, Nat.zero_le _,
        [], rfl, by simp [sortDesc], List.Perm.refl _, fun q => rfl⟩
    | cons e es =>
      rw [if_neg (by simp)] at hl
      cases heq : eventScored model user (e :: es) with
      | ok scored =>
        rw [heq] at hl
        have hl' : Except.ok ((sortDesc scored).take k) = Except.ok l := hl
        injection hl' with hl2
        subst hl2
        obtain ⟨h1, h2, h3, h4⟩ := sortTake_props scored k
        exact ⟨h1, h2, scored, rfl, rfl, h3, h4⟩
      | error e2 =>
        rw [heq] at hl
        exact absurd hl (by simp)

/-- Witness for C5: the empty-candidate case at a concrete model, user and
`top_k`, extracted by applying the theorem. -/
theorem C5_rank_sorted_stable_witness :
    rank_clubs_with_linucb (LinUCB.init 38 1 1) ⟨1, "", ""⟩ [] 5 = Except.ok [] :=
  (C5_rank_sorted_stable (LinUCB.init 38 1 1) ⟨1, "", ""⟩ [] [] 5).2.2.1
    (LinUCB.init 38 1 1) ⟨1, "", ""⟩ 5

/-! ## Lemmas about the feature encoders -/

theorem map_indicator_zero (s : String) :
    ∀ l : List String, s ∉ l →
      l.map (fun d => if d = s then (1 : ℚ) else 0) = List.replicate l.length 0 := by
  intro l
  induction l with
  | nil => intro _; rfl
  | cons a as ih =>
    intro h
    simp only [List.map_cons, List.length_cons, List.replicate_succ]
    have ha : ¬ a = s := by
      intro e
      apply h
      rw [← e]
      exact List.mem_cons_self a as
    rw [if_neg ha]
    rw [ih fun hs => h (List.mem_cons_of_mem a hs)]

theorem encode_tags_to_vector_length (s : String) :
    (encode_tags_to_vector s).length = 10 := by
  by_cases h : s = "" <;> simp [encode_tags_to_vector, h, TAG_VOCAB]

theorem dropTwoTens (a b t : List ℚ) (ha : a.length = 10) (hb : b.length = 10) :
    (a ++ b ++ t).drop 20 = t := by
  have h20 : (20 : ℕ) = (a ++ b).length := by
    rw [List.length_append, ha, hb]
  rw [h20, List.drop_left]

theorem encode_meeting_time_short (mt : String)
    (h : (pySplitWs mt).length < 2) :
    encode_meeting_time mt = (List.replicate 7 0, List.replicate 3 0) := by
  by_cases hmt : mt = ""
  · simp [encode_meeting_time, hmt]
  · have h2 : ¬ 2 ≤ (pySplitWs mt).length := by omega
    simp [encode_meeting_time, hmt, h2]

theorem encode_meeting_time_day_zero (mt : String)
    (h : pyTake 3 (pyLower (pyStrip ((pySplitWs mt).headD ""))) ∉ DAY_ORDER) :
    (encode_meeting_time mt).1 = List.replicate 7 0 := by
  by_cases hmt : mt = ""
  · simp [encode_meeting_time, hmt]
  · by_cases h2 : 2 ≤ (pySplitWs mt).length
    · simp only [encode_meeting_time, if_neg hmt, if_pos h2]
      exact map_indicator_zero _ DAY_ORDER h
    · simp [encode_meeting_time, hmt, h2]

theorem encode_meeting_time_bucket_zero (mt : String)
    (h : ∀ hv : ℤ,
      pyInt ((pySplitOn ':' ((pySplitWs mt).getD 1 "")).headD "") = some hv →
      hv < 0 ∨ 23 < hv) :
    (encode_meeting_time mt).2 = List.replicate 3 0 := by
  by_cases hmt : mt = ""
  · simp [encode_meeting_time, hmt]
  · by_cases h2 : 2 ≤ (pySplitWs mt).length
    · simp only [encode_meeting_time, if_neg hmt, if_pos h2]
      cases hp : pyInt ((pySplitOn ':' ((pySplitWs mt).getD 1 "")).headD "") with
      | none => simp [hp]
      | some hv =>
        have hd := h hv hp
        have c1 : ¬ (0 ≤ hv ∧ hv < 12) := by omega
        have c2 : ¬ (12 ≤ hv ∧ hv < 17) := by omega
        have c3 : ¬ (17 ≤ hv ∧ hv ≤ 23) := by omega
        simp [hp, c1, c2, c3, List.replicate]
    · simp [encode_meeting_time, hmt, h2]

theorem event_time_block_none (u : User) (ev : Event)
    (h : ev.start_time = none) :
    (build_event_feature_vector u ev).drop 20 = [1, 0, 1, 0] := by
  have hb : (match ev.club with
      | some c => encode_tags_to_vector c.tags
      | none => TAG_VOCAB.map fun _ => (0 : ℚ)).length = 10 := by
    cases ev.club with
    | some c => exact encode_tags_to_vector_length c.tags
    | none => simp [TAG_VOCAB]
  have hu : (encode_user_interests u).length = 10 :=
    encode_tags_to_vector_length u.interests
  simp only [build_event_feature_vector, h]
  rw [dropTwoTens _ _ _ hu hb]
  norm_num

/-- C7 counterexample: for an event with a missing `start_time` the
encoder's time block — positions 20..23 of the feature vector, claimed to
be all-zero — is in fact `[1, 0, 1, 0]` (the weekday flag and the
non-evening flag are set), so the claim is false at this input. -/
theorem C7_counterexample :
    (build_event_feature_vector ⟨1, "", ""⟩ ⟨1, none, none⟩).drop 20 =
      [1, 0, 1, 0] ∧
    (build_event_feature_vector ⟨1, "", ""⟩ ⟨1, none, none⟩).drop 20 ≠
      List.replicate 4 (0 : ℚ) := by
  constructor
  · exact event_time_block_none ⟨1, "", ""⟩ ⟨1, none, none⟩ rfl
  · rw [event_time_block_none ⟨1, "", ""⟩ ⟨1, none, none⟩ rfl]
    decide

/-- C7 (amended): the encoders are total — they never throw on malformed
schedule data — and degrade blockwise to fixed defaults.  For the club
encoder: a schedule with fewer than two whitespace parts yields zero day
and bucket blocks; the day one-hot is all-zero whenever the 3-letter
lowercase prefix of the first part is not a day name; and the bucket is
all-zero whenever the hour does not parse to an integer in `0..23`.  For
the event encoder the claim must be amended: a missing `start_time` yields
the fixed time block `[1, 0, 1, 0]` (weekday, non-evening) rather than an
all-zero block. -/
theorem C7_encode_degrades (mt : String) (u : User) (ev : Event) :
    ((pySplitWs mt).length < 2 →
      encode_meeting_time mt = (List.replicate 7 0, List.replicate 3 0)) ∧
    (pyTake 3 (pyLower (pyStrip ((pySplitWs mt).headD ""))) ∉ DAY_ORDER →
      (encode_meeting_time mt).1 = List.replicate 7 0) ∧
    ((∀ hv : ℤ,
        pyInt ((pySplitOn ':' ((pySplitWs mt).getD 1 "")).headD "") = some hv →
        hv < 0 ∨ 23 < hv) →
      (encode_meeting_time mt).2 = List.replicate 3 0) ∧
    (ev.start_time = none →
      (build_event_feature_vector u ev).drop 20 = [1, 0, 1, 0]) :=
  ⟨encode_meeting_time_short mt,
   encode_meeting_time_day_zero mt,
   encode_meeting_time_bucket_zero mt,
   event_time_block_none u ev⟩

/-- Witness for the amended C7 on the malformed schedule `"Xday aa:bb"`:
no valid day, no parsable hour. -/
theorem C7_encode_degrades_witness :
    encode_meeting_time "Xday" = (List.replicate 7 0, List.replicate 3 0) ∧
    (encode_meeting_time "Xday aa:bb").1 = List.replicate 7 0 ∧
    (encode_meeting_time "Xday aa:bb").2 = List.replicate 3 0 :=
  ⟨(C7_encode_degrades "Xday" ⟨1, "", ""⟩ ⟨1, none, none⟩).1 (by decide),
   (C7_encode_degrades "Xday aa:bb" ⟨1, "", ""⟩ ⟨1, none, none⟩).2.1 (by decide),
   (C7_encode_degrades "Xday aa:bb" ⟨1, "", ""⟩ ⟨1, none, none⟩).2.2.1
     (by
       intro hv hp
       have h0 : pyInt ((pySplitOn ':'
           ((pySplitWs "Xday aa:bb").getD 1 "")).headD "") = none := rfl
       rw [h0] at hp
       exact Option.noConfusion hp)⟩

/-- C8: whenever `len(candidates) <= final_k`, the down-selection stage
returns the candidate list unchanged, in its original order, and without
invoking the selection model: the result is the same for every oracle. -/
theorem C8_short_circuit (llm llm2 : List Event → LLMSelection)
    (candidates : List Event) (final_k : ℕ)
    (h : candidates.length ≤ final_k) :
    select_top_events_with_llm llm candidates final_k = candidates ∧
    select_top_events_with_llm llm candidates final_k =
      select_top_events_with_llm llm2 candidates final_k := by
  rw [select_top_events_with_llm, select_top_events_with_llm, if_pos h, if_pos h]
  exact ⟨rfl, rfl⟩

/-- Witness for C8 with two concrete oracles on a two-event list. -/
theorem C8_short_circuit_witness :
    ([(⟨1, none, none⟩ : Event), ⟨2, none, none⟩].length ≤ 3) ∧
    select_top_events_with_llm (fun _ => LLMSelection.parseError)
      [⟨1, none, none⟩, ⟨2, none, none⟩] 3 = [⟨1, none, none⟩, ⟨2, none, none⟩] :=
  ⟨by decide,
   (C8_short_circuit (fun _ => LLMSelection.parseError)
     (fun _ => LLMSelection.ids [2, 1])
     [⟨1, none, none⟩, ⟨2, none, none⟩] 3 (by decide)).1⟩

/-- C9 counterexample: the claim says each save writes to a temporary
location and then atomically renames it over the snapshot.  In the code,
`save_state` performs exactly `os.makedirs(dirname(path))` followed by one
`np.savez` directly to the final path: its trace contains no rename at
all, so the claimed mechanism (and with it the reader-atomicity guarantee)
is absent. -/
theorem C9_counterexample :
    (LinUCB.init 2 1 1).save_state "instance/linucb_clubs_state.npz" =
      [FsOp.makedirs "instance",
       FsOp.savez "instance/linucb_clubs_state.npz" (LinUCB.init 2 1 1).to_state] ∧
    ((LinUCB.init 2 1 1).save_state "instance/linucb_clubs_state.npz").countP
      (fun op => op.isReplace) = 0 :=
  ⟨rfl, rfl⟩

/-- C9 (amended): every save consists of creating the parent directory and
then serializing the model's full state in a single `np.savez` call
directly to the final snapshot path, with no temporary file, no rename and
no lock; and the save performed by `update_global_linucb_from_swipe` after
a successful update serializes exactly the post-update model state (the
sequential on-disk mirror is the in-memory state), while a failed update
performs no file operation.  No reader-atomicity guarantee is provided. -/
theorem C9_save_direct (path : String) (m : LinUCB) (u : User) (c : Club)
    (liked : Bool) :
    m.save_state path = [FsOp.makedirs (dirname path), FsOp.savez path m.to_state] ∧
    (m.save_state path).countP (fun op => op.isReplace) = 0 ∧
    ((update_global_linucb_from_swipe m u c liked).1 = Except.ok () →
      (update_global_linucb_from_swipe m u c liked).2.2 =
        (update_global_linucb_from_swipe m u c liked).2.1.save_state STATE_PATH_CLUBS) ∧
    (∀ e, (update_global_linucb_from_swipe m u c liked).1 = Except.error e →
      (update_global_linucb_from_swipe m u c liked).2.2 = []) := by
  refine ⟨rfl, rfl, ?_, ?_⟩ <;>
  · simp only [update_global_linucb_from_swipe]
    cases hup : m.update_from_features (build_feature_vector u c)
        (if liked then 1 else 0) with
    | mk r m' =>
      cases r with
      | ok v => simp
      | error e2 => simp

/-- Witness for the amended C9: the swipe-update of a dimension-38 model
saves the post-update state. -/
theorem C9_save_direct_witness :
    (update_global_linucb_from_swipe (LinUCB.init 38 1 1) ⟨1, "", ""⟩
        ⟨1, "", ""⟩ true).1 = Except.ok () ∧
    (update_global_linucb_from_swipe (LinUCB.init 38 1 1) ⟨1, "", ""⟩
        ⟨1, "", ""⟩ true).2.2 =
      (update_global_linucb_from_swipe (LinUCB.init 38 1 1) ⟨1, "", ""⟩
        ⟨1, "", ""⟩ true).2.1.save_state STATE_PATH_CLUBS := by
  have hok : (update_global_linucb_from_swipe (LinUCB.init 38 1 1) ⟨1, "", ""⟩
      ⟨1, "", ""⟩ true).1 = Except.ok () := rfl
  exact ⟨hok,
    (C9_save_direct STATE_PATH_CLUBS (LinUCB.init 38 1 1) ⟨1, "", ""⟩
      ⟨1, "", ""⟩ true).2.2.1 hok⟩

end CampusRec
